import Mathlib

/-!
Shallow embedding of the hologlyph.js library (HSBA pixel codec, .glyf
header builder and parser, RLE codec, whole-file compression, playback
tick loop and the per-voxel render traversal), together with theorems
settling the specified properties.  Buffers (JS `Uint8Array`) are
modelled as `List Nat` of byte values; JS exceptions are modelled with
`Except String`; 32-bit little-endian fields are explicit byte lists.
-/

namespace Hologlyph

/-- JS `clamp(v, min, max) = Math.min(Math.max(v, min), max)`. -/
def clamp (v lo hi : Nat) : Nat := min (max v lo) hi

/-- JS `Math.round (a / b)` for nonnegative `a`, positive `b`:
round-half-up, i.e. `⌊a/b + 1/2⌋ = ⌊(2a+b)/(2b)⌋`. -/
def roundDiv (a b : Nat) : Nat := (2 * a + b) / (2 * b)

/-- `percentToByte(percent) = Math.round(clamp(p,0,100) / 100 * 255)`. -/
def percentToByte (percent : Nat) : Nat := roundDiv (clamp percent 0 100 * 255) 100

/-- `byteToPercent(byte) = Math.round(clamp(b,0,255) / 255 * 100)`. -/
def byteToPercent (byte : Nat) : Nat := roundDiv (clamp byte 0 255 * 100) 255

/-- An HSBA color record: hue in 0..255, saturation/brightness/alpha as
percentages 0..100 (after decoding). -/
structure HSBA where
  h : Nat
  s : Nat
  b : Nat
  a : Nat
  deriving Repr, DecidableEq

/-- `HSBAUtil.encodePixel`: clamp hue to a byte, convert the three
percentages to bytes, yielding the 4-byte pixel record. -/
def encodePixel (c : HSBA) : List Nat :=
  [clamp c.h 0 255, percentToByte c.s, percentToByte c.b, percentToByte c.a]

/-- `HSBAUtil.decodePixel`: read `[h, sByte, bByte, aByte]` (missing
entries read as `undefined`, coerced to 0 by `Number(x) || 0`). -/
def decodePixel (bytes : List Nat) : HSBA :=
  { h := clamp (bytes.getD 0 0) 0 255
    s := byteToPercent (bytes.getD 1 0)
    b := byteToPercent (bytes.getD 2 0)
    a := byteToPercent (bytes.getD 3 0) }

/-- Options record accepted by `createHologlyphHeader` (defaults of the
JS destructuring are irrelevant here: every call site in scope passes
all fields). -/
structure HeaderOptions where
  width : Nat
  height : Nat
  depth : Nat
  frameCount : Nat
  frameDurationMs : Nat
  loop : Bool
  loopStartFrame : Nat
  bytesPerVoxel : Nat
  colorModel : Nat
  compressionType : Nat
  deriving Repr, DecidableEq

/-- Little-endian byte list written by `DataView.setUint32(off, x, true)`. -/
def u32LE (x : Nat) : List Nat :=
  [x % 256, x / 256 % 256, x / 65536 % 256, x / 16777216 % 256]

/-- `createHologlyphHeader`: the 28-byte header.  Bytes 0..3 are the
magic "HGLY" (72,71,76,89); byte 4 version 1; byte 5 header size 28;
byte 6 flags (bit 0 = loop); bytes 7..11 bytesPerVoxel, width, height,
depth, colorModel (single-byte stores truncate mod 256); bytes 12..15
frameCount LE; 16..19 frameDurationMs LE; 20..23 the reserved u32
written as 0 with byte 23 then overwritten by compressionType;
24..27 loopStartFrame LE. -/
def createHologlyphHeader (o : HeaderOptions) : List Nat :=
  [72, 71, 76, 89, 1, 28,
   if o.loop then 1 else 0,
   o.bytesPerVoxel % 256, o.width % 256, o.height % 256, o.depth % 256,
   o.colorModel % 256]
  ++ u32LE o.frameCount
  ++ u32LE o.frameDurationMs
  ++ [0, 0, 0, o.compressionType % 256]
  ++ u32LE o.loopStartFrame

/-- Parsed header record returned by `parseHologlyphHeader`. -/
structure HologlyphHeader where
  magic : List Nat
  version : Nat
  headerSize : Nat
  loop : Bool
  loopStartFrame : Nat
  bytesPerVoxel : Nat
  width : Nat
  height : Nat
  depth : Nat
  colorModel : Nat
  compressionType : Nat
  frameCount : Nat
  frameDurationMs : Nat
  frameSizeBytes : Nat
  dataOffset : Nat
  deriving Repr, DecidableEq

/-- Little-endian u32 read by `DataView.getUint32(off, true)` from the
byte list. -/
def getU32LE (l : List Nat) (off : Nat) : Nat :=
  l.getD off 0 + 256 * l.getD (off + 1) 0 + 65536 * l.getD (off + 2) 0
    + 16777216 * l.getD (off + 3) 0

/-- `parseHologlyphHeader`: throws "Invalid hologlyph buffer" on fewer
than 28 bytes, "Invalid magic" when bytes 0..3 are not "HGLY"; otherwise
reads every field.  `compressionType` is `u8[23] || NONE` (the JS `||`
turns a falsy 0 into the NONE constant, itself 0). -/
def parseHologlyphHeader (u8 : List Nat) : Except String HologlyphHeader :=
  if u8.length < 28 then .error "Invalid hologlyph buffer"
  else if ¬(u8.getD 0 0 = 72 ∧ u8.getD 1 0 = 71 ∧ u8.getD 2 0 = 76 ∧
            u8.getD 3 0 = 89) then .error "Invalid magic"
  else
    let ct := u8.getD 23 0
    let width := u8.getD 8 0
    let height := u8.getD 9 0
    let depth := u8.getD 10 0
    let bytesPerVoxel := u8.getD 7 0
    .ok
      { magic := [u8.getD 0 0, u8.getD 1 0, u8.getD 2 0, u8.getD 3 0]
        version := u8.getD 4 0
        headerSize := u8.getD 5 0
        loop := Nat.land (u8.getD 6 0) 1 != 0
        loopStartFrame := getU32LE u8 24
        bytesPerVoxel := bytesPerVoxel
        width := width
        height := height
        depth := depth
        colorModel := u8.getD 11 0
        compressionType := if ct = 0 then 0 else ct
        frameCount := getU32LE u8 12
        frameDurationMs := getU32LE u8 16
        frameSizeBytes := width * height * depth * bytesPerVoxel
        dataOffset := 28 }

/-- A 4-byte voxel color record (H, S, B, A bytes). -/
abbrev Voxel := Nat × Nat × Nat × Nat

/-- Inner scan of `compressRLE`: number of immediately following voxels
equal to `v`, capped (the JS loop condition `count < MAX_RLE_RUN` stops
scanning once the run reaches 255, i.e. at most `cap = 254` extras). -/
def runLen (v : Voxel) : List Voxel → Nat → Nat
  | [], _ => 0
  | _ :: _, 0 => 0
  | w :: rest, cap + 1 => if w = v then runLen v rest cap + 1 else 0

/-- Chunk a byte list (whose length `compressRLE` has checked to be a
multiple of 4) into 4-byte voxel records. -/
def toVoxels : List Nat → List Voxel
  | h :: s :: b :: a :: rest => (h, s, b, a) :: toVoxels rest
  | _ => []

/-- Flatten voxel records back to the byte stream. -/
def flattenVoxels (vs : List Voxel) : List Nat :=
  vs.flatMap fun v => [v.1, v.2.1, v.2.2.1, v.2.2.2]

/-- Outer loop of `compressRLE`: emit one `(count, voxel)` run per
maximal (cap-255) block of identical voxels, then continue after the
block (`i = j`). -/
def rleRuns : List Voxel → List (Nat × Voxel)
  | [] => []
  | v :: rest =>
    let c := runLen v rest 254 + 1
    (c, v) :: rleRuns (rest.drop (c - 1))
termination_by l => l.length
decreasing_by simp [List.length_drop]; omega

/-- Byte serialization `[count, H, S, B, A]` of the run list. -/
def flattenRuns (rs : List (Nat × Voxel)) : List Nat :=
  rs.flatMap fun r => [r.1, r.2.1, r.2.2.1, r.2.2.2.1, r.2.2.2.2]

/-- Semantic expansion of a run list: `count` copies of each voxel (the
reference meaning of the RLE format, used to state codec lemmas). -/
def expandRuns (rs : List (Nat × Voxel)) : List Voxel :=
  rs.flatMap fun r => List.replicate r.1 r.2

/-- `compressRLE`: empty input gives empty output; a length that is not
a multiple of 4 throws; otherwise the run-length encoding. -/
def compressRLE (voxelData : List Nat) : Except String (List Nat) :=
  if voxelData.length = 0 then .ok []
  else if voxelData.length % 4 ≠ 0 then
    .error "Voxel data must be multiple of 4 bytes"
  else .ok (flattenRuns (rleRuns (toVoxels voxelData)))

/-- One 4-byte store `decompressed[writePos..writePos+3] = (h,s,b,a)`. -/
def writeVoxel (buf : List Nat) (pos : Nat) (v : Voxel) : List Nat :=
  (((buf.set pos v.1).set (pos + 1) v.2.1).set (pos + 2) v.2.2.1).set
    (pos + 3) v.2.2.2

/-- Inner loop of `decompressRLE`: write `count` copies of the voxel,
breaking when a 4-byte write would overshoot `expectedLength`; returns
the updated buffer and write position. -/
def writeRun : List Nat → Nat → Voxel → Nat → Nat → List Nat × Nat
  | buf, writePos, _, 0, _ => (buf, writePos)
  | buf, writePos, v, c + 1, n =>
    if writePos + 4 > n then (buf, writePos)
    else writeRun (writeVoxel buf writePos v) (writePos + 4) v c n

/-- Outer loop of `decompressRLE` over the 5-byte runs; out-of-range
reads of the compressed data model the JS `undefined`-to-0 coercion a
`Uint8Array` store performs. -/
def decompressRLEAux (data : List Nat) (n readPos writePos : Nat)
    (buf : List Nat) : List Nat × Nat :=
  if h : readPos < data.length ∧ writePos < n then
    let count := data.getD readPos 0
    let p := writeRun buf writePos
      (data.getD (readPos + 1) 0, data.getD (readPos + 2) 0,
       data.getD (readPos + 3) 0, data.getD (readPos + 4) 0) count n
    decompressRLEAux data n (readPos + 5) p.2 p.1
  else (buf, writePos)
termination_by data.length - readPos
decreasing_by omega

/-- `decompressRLE`: the returned buffer (allocated zero-filled at
`expectedLength` and filled by the runs). -/
def decompressRLE (data : List Nat) (expectedLength : Nat) : List Nat :=
  (decompressRLEAux data expectedLength 0 0
    (List.replicate expectedLength 0)).1

/-- Final write position of the `decompressRLE` loop. -/
def decompressRLEWritePos (data : List Nat) (expectedLength : Nat) : Nat :=
  (decompressRLEAux data expectedLength 0 0
    (List.replicate expectedLength 0)).2

/-- Condition of the `console.warn` in `decompressRLE`
(`writePos !== expectedLength`); the warning is the only trace of a
mismatch, the function still returns the buffer normally. -/
def decompressRLEWarns (data : List Nat) (expectedLength : Nat) : Bool :=
  decompressRLEWritePos data expectedLength != expectedLength

/-- `compressGlyfFile`: parse the header (propagating its errors);
already-compressed input is returned unchanged (with a console warning);
otherwise RLE-compress the payload after byte 28 and prepend a rebuilt
header whose compressionType is RLE (1). -/
def compressGlyfFile (buffer : List Nat) : Except String (List Nat) := do
  let header ← parseHologlyphHeader buffer
  if header.compressionType ≠ 0 then
    return buffer
  else
    let voxelData := buffer.drop 28
    let compressedVoxels ← compressRLE voxelData
    let newHeader := createHologlyphHeader
      { width := header.width, height := header.height,
        depth := header.depth, frameCount := header.frameCount,
        frameDurationMs := header.frameDurationMs, loop := header.loop,
        loopStartFrame := header.loopStartFrame,
        bytesPerVoxel := header.bytesPerVoxel,
        colorModel := header.colorModel, compressionType := 1 }
    return newHeader ++ compressedVoxels

/-- `decompressGlyfFile`: compressionType NONE returns the input
unchanged; RLE decompresses `frameSizeBytes * frameCount` bytes and
prepends a rebuilt uncompressed header; any other id throws. -/
def decompressGlyfFile (buffer : List Nat) : Except String (List Nat) := do
  let header ← parseHologlyphHeader buffer
  if header.compressionType = 0 then
    return buffer
  else if header.compressionType = 1 then
    let compressedVoxels := buffer.drop 28
    let expectedLength := header.frameSizeBytes * header.frameCount
    let decompressedVoxels := decompressRLE compressedVoxels expectedLength
    let newHeader := createHologlyphHeader
      { width := header.width, height := header.height,
        depth := header.depth, frameCount := header.frameCount,
        frameDurationMs := header.frameDurationMs, loop := header.loop,
        loopStartFrame := header.loopStartFrame,
        bytesPerVoxel := header.bytesPerVoxel,
        colorModel := header.colorModel, compressionType := 0 }
    return newHeader ++ decompressedVoxels
  else .error "Unknown compression type"

/-- Mutable playback fields of `HologlyphPlayer` touched by `_loop` and
`_advanceFrame` (`currentFrame`, `_playing`, `_accum`) together with the
header-derived constants they read. -/
structure PlayerState where
  currentFrame : Nat
  frameCount : Nat
  loop : Bool
  loopStartFrame : Nat
  frameDurationMs : Nat
  playing : Bool
  accum : Nat
  deriving Repr, DecidableEq

/-- `_advanceFrame`: increment below the last frame; at the last frame
jump to `min(loopStartFrame, frameCount - 1)` when looping, else
`pause()`. -/
def advanceFrame (st : PlayerState) : PlayerState :=
  if st.currentFrame + 1 < st.frameCount then
    { st with currentFrame := st.currentFrame + 1 }
  else if st.loop then
    { st with currentFrame := min st.loopStartFrame (st.frameCount - 1) }
  else
    { st with playing := false }

/-- The `while (this._accum >= this.frameDurationMs)` loop of `_loop`,
indexed by fuel: `none` means the loop is still running after that many
iterations (the JS loop has no other exit). -/
def tickWhile : Nat → PlayerState → Option PlayerState
  | 0, _ => none
  | fuel + 1, st =>
    if st.frameDurationMs ≤ st.accum then
      tickWhile fuel
        (advanceFrame { st with accum := st.accum - st.frameDurationMs })
    else some st

/-- One `_loop` tick: accumulate the elapsed delta, then drain whole
frame durations. -/
def tick (fuel : Nat) (delta : Nat) (st : PlayerState) : Option PlayerState :=
  tickWhile fuel { st with accum := st.accum + delta }

/-- One record of the per-voxel render pass (`_render2D` and
`_renderWebGL` share the traversal, the skip test and the centering
translation). -/
structure EmittedVoxel where
  index : Nat
  tx : ℚ
  ty : ℚ
  tz : ℚ
  color : HSBA
  deriving Repr, DecidableEq

/-- Color decoded at one grid cell: `base = index * bytesPerVoxel` with
the running index `z*(height*width) + y*width + x`, the 4-byte slice
`frame.subarray(base, base+4)` (out-of-range reads modelling the JS
`undefined`-to-0 coercion of `decodePixel`), then `HSBAUtil.decodePixel`. -/
def cellColor (width height bytesPerVoxel : Nat) (frame : List Nat)
    (x y z : Nat) : HSBA :=
  let index := z * (height * width) + y * width + x
  let base := index * bytesPerVoxel
  decodePixel [frame.getD base 0, frame.getD (base + 1) 0,
    frame.getD (base + 2) 0, frame.getD (base + 3) 0]

/-- The per-voxel pass over one frame: z (slowest), y, x (fastest); the
running `index` of the source increments once per visited cell (skipped
or not) and therefore equals `z*(height*width) + y*width + x` at cell
(x,y,z); cells whose decoded alpha or brightness is 0 are skipped, the
rest are emitted translated by half the grid extent. -/
def projectFrame (width height depth bytesPerVoxel : Nat)
    (frame : List Nat) : List EmittedVoxel :=
  (List.range depth).flatMap fun z =>
    (List.range height).flatMap fun y =>
      (List.range width).filterMap fun x =>
        let c := cellColor width height bytesPerVoxel frame x y z
        if c.a = 0 ∨ c.b = 0 then none
        else some { index := z * (height * width) + y * width + x,
                    tx := (x : ℚ) - (width : ℚ) / 2,
                    ty := (y : ℚ) - (height : ℚ) / 2,
                    tz := (z : ℚ) - (depth : ℚ) / 2,
                    color := c }

/-- Parsing a freshly built header (with any trailing payload) succeeds
and reads back every field, truncated to its stored width. -/
theorem parse_create_append (o : HeaderOptions) (rest : List Nat) :
    parseHologlyphHeader (createHologlyphHeader o ++ rest) = .ok
      { magic := [72, 71, 76, 89]
        version := 1
        headerSize := 28
        loop := o.loop
        loopStartFrame := o.loopStartFrame % 4294967296
        bytesPerVoxel := o.bytesPerVoxel % 256
        width := o.width % 256
        height := o.height % 256
        depth := o.depth % 256
        colorModel := o.colorModel % 256
        compressionType := o.compressionType % 256
        frameCount := o.frameCount % 4294967296
        frameDurationMs := o.frameDurationMs % 4294967296
        frameSizeBytes := (o.width % 256) * (o.height % 256) * (o.depth % 256)
          * (o.bytesPerVoxel % 256)
        dataOffset := 28 } := by
  have hct : ∀ c : Nat, (if c % 256 = 0 then 0 else c % 256) = c % 256 := by
    intro c; by_cases h : c % 256 = 0 <;> simp [h]
  have hloop : (Nat.land (if o.loop then 1 else 0) 1 != 0) = o.loop := by
    cases o.loop <;> rfl
  have hu32 : ∀ x : Nat, x % 256 + 256 * (x / 256 % 256) + 65536 * (x / 65536 % 256)
      + 16777216 * (x / 16777216 % 256) = x % 4294967296 := by omega
  simp only [parseHologlyphHeader, createHologlyphHeader, u32LE, getU32LE,
    List.cons_append, List.nil_append, List.length_cons, List.getD_cons_zero,
    List.getD_cons_succ]
  rw [if_neg (by omega)]
  rw [if_neg (by simp)]
  simp [hct, hloop, hu32]

/-- C3: for every options record with all fields in their valid ranges
(width/height/depth in 1..255, frameCount at least 1 and below 2^32,
frameDurationMs/loopStartFrame below 2^32, bytesPerVoxel, colorModel and
compressionType bytes), `parseHologlyphHeader (createHologlyphHeader o)`
returns a record whose ten option-derived fields equal those of `o`
exactly. -/
theorem header_roundtrip (o : HeaderOptions)
    (hw1 : 1 ≤ o.width) (hw2 : o.width ≤ 255)
    (hh1 : 1 ≤ o.height) (hh2 : o.height ≤ 255)
    (hd1 : 1 ≤ o.depth) (hd2 : o.depth ≤ 255)
    (hfc1 : 1 ≤ o.frameCount) (hfc2 : o.frameCount < 4294967296)
    (hdur : o.frameDurationMs < 4294967296)
    (hls : o.loopStartFrame < 4294967296)
    (hbpv : o.bytesPerVoxel ≤ 255)
    (hcm : o.colorModel ≤ 255)
    (hcti : o.compressionType ≤ 255) :
    ∃ h, parseHologlyphHeader (createHologlyphHeader o) = .ok h ∧
      h.width = o.width ∧ h.height = o.height ∧ h.depth = o.depth ∧
      h.frameCount = o.frameCount ∧ h.frameDurationMs = o.frameDurationMs ∧
      h.loop = o.loop ∧ h.loopStartFrame = o.loopStartFrame ∧
      h.bytesPerVoxel = o.bytesPerVoxel ∧ h.colorModel = o.colorModel ∧
      h.compressionType = o.compressionType := by
  have hp := parse_create_append o []
  rw [List.append_nil] at hp
  refine ⟨_, hp, ?_, ?_, ?_, ?_, ?_, ?_, ?_, ?_, ?_, ?_⟩ <;> (simp <;> omega)

/-- Witness for C3 at a concrete options record. -/
theorem header_roundtrip_witness :
    ∃ h, parseHologlyphHeader
        (createHologlyphHeader ⟨2, 3, 4, 5, 100, true, 2, 4, 0, 0⟩) = .ok h ∧
      h.width = 2 ∧ h.height = 3 ∧ h.depth = 4 ∧
      h.frameCount = 5 ∧ h.frameDurationMs = 100 ∧
      h.loop = true ∧ h.loopStartFrame = 2 ∧
      h.bytesPerVoxel = 4 ∧ h.colorModel = 0 ∧ h.compressionType = 0 :=
  header_roundtrip ⟨2, 3, 4, 5, 100, true, 2, 4, 0, 0⟩
    (by decide) (by decide) (by decide) (by decide) (by decide) (by decide)
    (by decide) (by decide) (by decide) (by decide) (by decide) (by decide)
    (by decide)

/-- C8: `parseHologlyphHeader` fails exactly when the input has fewer
than 28 bytes or its first four bytes are not the magic "HGLY"
(72,71,76,89); in particular a 28-byte-or-longer buffer with correct
magic parses successfully however large its version byte is, the
version being handed back to the caller. -/
theorem parse_error_characterization (u8 : List Nat) :
    ((∃ e, parseHologlyphHeader u8 = .error e) ↔
      (u8.length < 28 ∨ ¬(u8.getD 0 0 = 72 ∧ u8.getD 1 0 = 71 ∧
        u8.getD 2 0 = 76 ∧ u8.getD 3 0 = 89))) ∧
    (28 ≤ u8.length → u8.getD 0 0 = 72 → u8.getD 1 0 = 71 →
      u8.getD 2 0 = 76 → u8.getD 3 0 = 89 → 1 < u8.getD 4 0 →
      ∃ h, parseHologlyphHeader u8 = .ok h ∧ h.version = u8.getD 4 0) := by
  constructor
  · by_cases h1 : u8.length < 28
    · simp [parseHologlyphHeader, h1]
    · by_cases h2 : (u8.getD 0 0 = 72 ∧ u8.getD 1 0 = 71 ∧
          u8.getD 2 0 = 76 ∧ u8.getD 3 0 = 89)
      · rw [parseHologlyphHeader, if_neg h1, if_neg (not_not_intro h2)]
        simp only [List.getD_eq_getElem?_getD] at h2
        simp [h1, h2]
      · rw [parseHologlyphHeader, if_neg h1, if_pos h2]
        simp only [List.getD_eq_getElem?_getD] at h2
        simp [h1, h2]
  · intro hlen h0 h1 h2 h3 _
    rw [parseHologlyphHeader, if_neg (Nat.not_lt.mpr hlen),
      if_neg (not_not_intro ⟨h0, h1, h2, h3⟩)]
    exact ⟨_, rfl, rfl⟩

/-- Witness for C8: a 28-byte buffer with correct magic and version
byte 7 (greater than the implemented version 1) parses successfully. -/
theorem parse_error_characterization_witness :
    ∃ h, parseHologlyphHeader
        [72, 71, 76, 89, 7, 28, 0, 4, 1, 1, 1, 0, 1, 0, 0, 0,
         100, 0, 0, 0, 0, 0, 0, 0, 0, 0, 0, 0] = .ok h ∧
      h.version = 7 := by
  obtain ⟨h, hok, hv⟩ :=
    (parse_error_characterization
      [72, 71, 76, 89, 7, 28, 0, 4, 1, 1, 1, 0, 1, 0, 0, 0,
       100, 0, 0, 0, 0, 0, 0, 0, 0, 0, 0, 0]).2
      (by decide) (by decide) (by decide) (by decide) (by decide) (by decide)
  exact ⟨h, hok, by simpa using hv⟩

set_option maxRecDepth 100000 in
/-- C7: for percentages p in 0..100 the percentage-to-byte-to-percentage
round trip `byteToPercent (percentToByte p)` is monotone in p and within
one unit of p, and it is exactly the saturation component of
`decodePixel (encodePixel)` on an all-p HSBA record. -/
theorem percent_byte_quantization :
    (∀ p q : Nat, p ≤ 100 → q ≤ p →
      byteToPercent (percentToByte q) ≤ byteToPercent (percentToByte p)) ∧
    (∀ p : Nat, p ≤ 100 →
      byteToPercent (percentToByte p) ≤ p + 1 ∧
      p ≤ byteToPercent (percentToByte p) + 1) ∧
    (∀ hh p : Nat,
      (decodePixel (encodePixel ⟨hh, p, p, p⟩)).s
        = byteToPercent (percentToByte p)) := by
  have key1 : ∀ p < 101, ∀ q < 101, q ≤ p →
      byteToPercent (percentToByte q) ≤ byteToPercent (percentToByte p) := by
    decide
  have key2 : ∀ p < 101, byteToPercent (percentToByte p) ≤ p + 1 ∧
      p ≤ byteToPercent (percentToByte p) + 1 := by decide
  refine ⟨fun p q hp hq => key1 p (by omega) q (by omega) hq,
          fun p hp => key2 p (by omega), fun hh p => ?_⟩
  simp [encodePixel, decodePixel]

/-- Witness for C7 at p = 50, q = 25. -/
theorem percent_byte_quantization_witness :
    byteToPercent (percentToByte 25) ≤ byteToPercent (percentToByte 50) ∧
    (byteToPercent (percentToByte 50) ≤ 51 ∧
      50 ≤ byteToPercent (percentToByte 50) + 1) ∧
    (decodePixel (encodePixel ⟨0, 50, 50, 50⟩)).s
      = byteToPercent (percentToByte 50) :=
  ⟨percent_byte_quantization.1 50 25 (by decide) (by decide),
   percent_byte_quantization.2.1 50 (by decide),
   percent_byte_quantization.2.2 0 50⟩

/-- Reading through `drop` shifts the index. -/
theorem getD_drop (l : List Nat) (i j : Nat) :
    (l.drop i).getD j 0 = l.getD (i + j) 0 := by
  simp [List.getD_eq_getElem?_getD, List.getElem?_drop]

/-- Stores at one index leave reads at any other index unchanged. -/
theorem getD_set_ne (l : List Nat) (i j x : Nat) (h : i ≠ j) :
    (l.set i x).getD j 0 = l.getD j 0 := by
  simp [List.getD_eq_getElem?_getD, List.getElem?_set_ne h]

/-- Every read of the zero-filled fresh buffer yields 0. -/
theorem getD_replicate_zero (n i : Nat) :
    (List.replicate n (0 : Nat)).getD i 0 = 0 := by
  simp only [List.getD_eq_getElem?_getD, List.getElem?_replicate]
  split <;> rfl

/-- Setting within the right part of an append. -/
theorem set_append_len (A : List Nat) (B : List Nat) (j x : Nat) :
    (A ++ B).set (A.length + j) x = A ++ B.set j x := by
  induction A with
  | nil => simp
  | cons a A ih =>
    simp only [List.cons_append, List.length_cons]
    rw [Nat.add_right_comm]
    simp [ih]

/-- The scan count never exceeds its cap. -/
theorem runLen_le (v : Voxel) (l : List Voxel) : ∀ cap, runLen v l cap ≤ cap := by
  induction l with
  | nil => intro cap; simp [runLen]
  | cons w rest ih =>
    intro cap
    cases cap with
    | zero => simp [runLen]
    | succ c =>
      rw [runLen]
      split
      · have := ih c; omega
      · omega

/-- The scanned prefix consists of copies of the scanned voxel. -/
theorem take_runLen (v : Voxel) (l : List Voxel) : ∀ cap,
    l.take (runLen v l cap) = List.replicate (runLen v l cap) v := by
  induction l with
  | nil => intro cap; simp [runLen]
  | cons w rest ih =>
    intro cap
    cases cap with
    | zero => simp [runLen]
    | succ c =>
      rw [runLen]
      split
      · rename_i hw
        simp [List.replicate_succ, ih c, hw]
      · simp

/-- Expanding the runs produced by `compressRLE` recovers the voxels. -/
theorem rleRuns_expand_bounded :
    ∀ (n : Nat) (vs : List Voxel), vs.length ≤ n →
      expandRuns (rleRuns vs) = vs := by
  intro n
  induction n with
  | zero =>
    intro vs h
    cases vs with
    | nil => simp [rleRuns, expandRuns]
    | cons v rest => simp at h
  | succ n ih =>
    intro vs h
    cases vs with
    | nil => simp [rleRuns, expandRuns]
    | cons v rest =>
      rw [rleRuns]
      simp only [expandRuns, List.flatMap_cons, Nat.add_sub_cancel]
      have hrec := ih (rest.drop (runLen v rest 254))
        (by simp [List.length_drop]; simp at h; omega)
      simp only [expandRuns] at hrec
      rw [hrec, List.replicate_succ]
      have htake := take_runLen v rest 254
      calc v :: (List.replicate (runLen v rest 254) v
            ++ rest.drop (runLen v rest 254))
          = v :: (rest.take (runLen v rest 254)
            ++ rest.drop (runLen v rest 254)) := by rw [htake]
        _ = v :: rest := by rw [List.take_append_drop]

/-- Wrapper of the previous lemma. -/
theorem rleRuns_expand (vs : List Voxel) : expandRuns (rleRuns vs) = vs :=
  rleRuns_expand_bounded vs.length vs (Nat.le_refl _)

/-- Every run emitted by `compressRLE` has count between 1 and 255. -/
theorem rleRuns_counts :
    ∀ (n : Nat) (vs : List Voxel), vs.length ≤ n →
      ∀ r ∈ rleRuns vs, 1 ≤ r.1 ∧ r.1 ≤ 255 := by
  intro n
  induction n with
  | zero =>
    intro vs h r hr
    cases vs with
    | nil => simp [rleRuns] at hr
    | cons v rest => simp at h
  | succ n ih =>
    intro vs h r hr
    cases vs with
    | nil => simp [rleRuns] at hr
    | cons v rest =>
      rw [rleRuns] at hr
      simp only [List.mem_cons] at hr
      rcases hr with hr | hr
      · have := runLen_le v rest 254; subst hr; simp; omega
      · exact ih (rest.drop (runLen v rest 254 + 1 - 1))
          (by simp [List.length_drop]; simp at h; omega) r hr

/-- Length of an expanded run list is the sum of the counts. -/
theorem expandRuns_length (rs : List (Nat × Voxel)) :
    (expandRuns rs).length = (rs.map Prod.fst).sum := by
  induction rs with
  | nil => simp [expandRuns]
  | cons r rs ih =>
    simp only [expandRuns, List.flatMap_cons, List.length_append,
      List.length_replicate, List.map_cons, List.sum_cons] at ih ⊢
    omega

/-- Flattening distributes over append. -/
theorem flattenVoxels_append (a b : List Voxel) :
    flattenVoxels (a ++ b) = flattenVoxels a ++ flattenVoxels b := by
  simp [flattenVoxels]

/-- Each voxel record contributes exactly 4 bytes. -/
theorem flattenVoxels_length (vs : List Voxel) :
    (flattenVoxels vs).length = 4 * vs.length := by
  induction vs with
  | nil => simp [flattenVoxels]
  | cons v vs ih => simp [flattenVoxels] at ih ⊢; omega

/-- Chunking then flattening is the identity on byte lists whose length
is a multiple of 4. -/
theorem flattenVoxels_toVoxels :
    ∀ l : List Nat, l.length % 4 = 0 → flattenVoxels (toVoxels l) = l
  | [], _ => by simp [toVoxels, flattenVoxels]
  | [a], hl => by simp at hl
  | [a, b], hl => by simp at hl
  | [a, b, c], hl => by simp at hl
  | a :: b :: c :: d :: rest, hl => by
    have hr : rest.length % 4 = 0 := by simp at hl; omega
    have := flattenVoxels_toVoxels rest hr
    simp [toVoxels, flattenVoxels] at this ⊢
    exact this

/-- A 4-byte store at the very start of the right part of an append. -/
theorem writeVoxel_append (A B : List Nat) (v : Voxel) :
    writeVoxel (A ++ B) A.length v = A ++ writeVoxel B 0 v := by
  have h0 := set_append_len A B 0 v.1
  rw [Nat.add_zero] at h0
  have h1 := set_append_len A (B.set 0 v.1) 1 v.2.1
  have h2 := set_append_len A ((B.set 0 v.1).set 1 v.2.1) 2 v.2.2.1
  have h3 := set_append_len A (((B.set 0 v.1).set 1 v.2.1).set 2 v.2.2.1)
    3 v.2.2.2
  simp only [writeVoxel, h0, h1, h2, h3, Nat.zero_add]

/-- A voxel store into the zero padding rewrites its first four zeros. -/
theorem writeVoxel_replicate (k : Nat) (v : Voxel) (hk : 4 ≤ k) :
    writeVoxel (List.replicate k 0) 0 v
      = [v.1, v.2.1, v.2.2.1, v.2.2.2] ++ List.replicate (k - 4) 0 := by
  obtain ⟨m, rfl⟩ : ∃ m, k = 4 + m := ⟨k - 4, by omega⟩
  have hrep : List.replicate (4 + m) (0 : Nat)
      = 0 :: 0 :: 0 :: 0 :: List.replicate m 0 := by
    rw [List.replicate_add]; rfl
  rw [hrep]
  simp [writeVoxel, List.set]

/-- Exact-fit behaviour of the inner decompression loop: when the
buffer tail has room for all `c` copies, they are all written and the
write position advances by `4*c`. -/
theorem writeRun_steps (v : Voxel) :
    ∀ (c : Nat) (A : List Nat) (k : Nat), 4 * c ≤ k →
    writeRun (A ++ List.replicate k 0) A.length v c (A.length + k)
      = (A ++ flattenVoxels (List.replicate c v)
          ++ List.replicate (k - 4 * c) 0, A.length + 4 * c) := by
  intro c
  induction c with
  | zero =>
    intro A k hk
    simp [writeRun, flattenVoxels]
  | succ c ih =>
    intro A k hk
    rw [writeRun, if_neg (by omega)]
    rw [writeVoxel_append, writeVoxel_replicate k v (by omega)]
    have hA : A ++ [v.1, v.2.1, v.2.2.1, v.2.2.2] ++ List.replicate (k - 4) 0
        = (A ++ [v.1, v.2.1, v.2.2.1, v.2.2.2]) ++ List.replicate (k - 4) 0 := by
      simp
    have hlen : (A ++ [v.1, v.2.1, v.2.2.1, v.2.2.2]).length = A.length + 4 := by
      simp
    have hn : A.length + k
        = (A ++ [v.1, v.2.1, v.2.2.1, v.2.2.2]).length + (k - 4) := by
      simp; omega
    rw [← List.append_assoc, show A.length + 4
        = (A ++ [v.1, v.2.1, v.2.2.1, v.2.2.2]).length from hlen.symm, hn]
    rw [ih (A ++ [v.1, v.2.1, v.2.2.1, v.2.2.2]) (k - 4) (by omega)]
    have hflat : flattenVoxels (List.replicate (c + 1) v)
        = [v.1, v.2.1, v.2.2.1, v.2.2.2] ++ flattenVoxels (List.replicate c v) := by
      rw [List.replicate_succ]; simp [flattenVoxels]
    rw [hflat]
    have hk4 : k - 4 - 4 * c = k - 4 * (c + 1) := by omega
    rw [hk4]
    have hl4 : (A ++ [v.1, v.2.1, v.2.2.1, v.2.2.2]).length + 4 * c
        = A.length + 4 * (c + 1) := by simp; omega
    rw [hl4]
    simp [List.append_assoc]

/-- The decompression loop, run over a serialized run list with the
exactly matching expected length, writes precisely the expansion of the
runs after whatever prefix is already in place. -/
theorem decompressAux_runs :
    ∀ (runs : List (Nat × Voxel)) (data : List Nat) (readPos : Nat)
      (A : List Nat),
      data.drop readPos = flattenRuns runs →
      (∀ r ∈ runs, 1 ≤ r.1) →
      decompressRLEAux data (A.length + 4 * (runs.map Prod.fst).sum) readPos
          A.length (A ++ List.replicate (4 * (runs.map Prod.fst).sum) 0)
        = (A ++ flattenVoxels (expandRuns runs),
           A.length + 4 * (runs.map Prod.fst).sum) := by
  intro runs
  induction runs with
  | nil =>
    intro data readPos A hdrop hcounts
    simp only [List.map_nil, List.sum_nil, Nat.mul_zero, List.replicate_zero,
      List.append_nil, Nat.add_zero]
    rw [decompressRLEAux, dif_neg (by simp)]
    simp [expandRuns, flattenVoxels]
  | cons r rs ih =>
    obtain ⟨c, v⟩ := r
    obtain ⟨v1, v2, v3, v4⟩ := v
    intro data readPos A hdrop hcounts
    have hc : 1 ≤ c := by simpa using hcounts (c, v1, v2, v3, v4) (by simp)
    have hdropc : data.drop readPos
        = c :: v1 :: v2 :: v3 :: v4 :: flattenRuns rs := by
      rw [hdrop]; simp [flattenRuns]
    have hne : readPos < data.length := by
      by_contra hcon
      have hnil : data.drop readPos = [] := List.drop_eq_nil_iff.mpr (by omega)
      rw [hnil] at hdropc
      simp at hdropc
    have hsum : ((List.map Prod.fst ((c, v1, v2, v3, v4) :: rs)).sum)
        = c + (List.map Prod.fst rs).sum := by simp
    have hread : ∀ j, data.getD (readPos + j) 0
        = (c :: v1 :: v2 :: v3 :: v4 :: flattenRuns rs).getD j 0 := by
      intro j
      rw [← getD_drop data readPos j, hdropc]
    rw [decompressRLEAux, dif_pos ⟨hne, by simp [hsum]; omega⟩]
    have hread0 : data.getD readPos 0 = c := by
      have h0 := hread 0
      rw [Nat.add_zero] at h0
      simpa using h0
    rw [hread0, hread 1, hread 2, hread 3, hread 4]
    simp only [List.getD_cons_succ, List.getD_cons_zero]
    rw [hsum]
    have hsteps := writeRun_steps (v1, v2, v3, v4) c A
      (4 * (c + (List.map Prod.fst rs).sum)) (by omega)
    rw [hsteps]
    have htail : 4 * (c + (List.map Prod.fst rs).sum) - 4 * c
        = 4 * (List.map Prod.fst rs).sum := by omega
    rw [htail]
    set A2 := A ++ flattenVoxels (List.replicate c (v1, v2, v3, v4)) with hA2
    have hA2len : A2.length = A.length + 4 * c := by
      rw [hA2]; simp [flattenVoxels_length]
    have hdrop2 : data.drop (readPos + 5) = flattenRuns rs := by
      have hdd := List.drop_drop 5 readPos data
      rw [hdropc] at hdd
      simpa using hdd.symm
    have hihinst := ih data (readPos + 5) A2 hdrop2
      (fun r hr => hcounts r (by simp [hr]))
    have hwp2 : A.length + 4 * c = A2.length := hA2len.symm
    have hn2 : A.length + 4 * (c + (List.map Prod.fst rs).sum)
        = A2.length + 4 * (List.map Prod.fst rs).sum := by
      rw [hA2len]; omega
    have hexp : flattenVoxels (List.replicate c (v1, v2, v3, v4))
        ++ flattenVoxels (expandRuns rs)
        = flattenVoxels (expandRuns ((c, v1, v2, v3, v4) :: rs)) := by
      rw [← flattenVoxels_append]
      simp [expandRuns, List.flatMap_cons]
    rw [hwp2, hn2, hihinst, hA2, List.append_assoc, hexp]

/-- Decompressing the output of `compressRLE` at the original length
recovers the input exactly. -/
theorem rle_roundtrip_core (v : List Nat) (h4 : v.length % 4 = 0) :
    decompressRLE (flattenRuns (rleRuns (toVoxels v))) v.length = v := by
  have hflat : flattenVoxels (toVoxels v) = v := flattenVoxels_toVoxels v h4
  have hlen : v.length = 4 * (toVoxels v).length := by
    have hl := flattenVoxels_length (toVoxels v)
    rw [hflat] at hl
    exact hl
  have hsum : ((rleRuns (toVoxels v)).map Prod.fst).sum
      = (toVoxels v).length := by
    have h1 := expandRuns_length (rleRuns (toVoxels v))
    rw [rleRuns_expand] at h1
    exact h1.symm
  have hmain := decompressAux_runs (rleRuns (toVoxels v))
    (flattenRuns (rleRuns (toVoxels v))) 0 [] (by simp)
    (fun r hr => (rleRuns_counts (toVoxels v).length (toVoxels v)
      (Nat.le_refl _) r hr).1)
  simp only [List.length_nil, List.nil_append, Nat.zero_add] at hmain
  rw [decompressRLE, show v.length
      = 4 * ((rleRuns (toVoxels v)).map Prod.fst).sum by omega]
  rw [hmain]
  rw [rleRuns_expand, hflat]

/-- C2: for every byte sequence whose length is a positive multiple of
4, `decompressRLE (compressRLE x) x.length` equals `x` byte for byte. -/
theorem rle_roundtrip (v : List Nat) (h4 : v.length % 4 = 0)
    (hpos : 0 < v.length) :
    ∃ out, compressRLE v = .ok out ∧ decompressRLE out v.length = v := by
  refine ⟨flattenRuns (rleRuns (toVoxels v)), ?_, rle_roundtrip_core v h4⟩
  rw [compressRLE, if_neg (by omega), if_neg (by omega)]

/-- Witness for C2 on a concrete 8-byte sequence. -/
theorem rle_roundtrip_witness :
    ∃ out, compressRLE [9, 8, 7, 6, 9, 8, 7, 6] = .ok out ∧
      decompressRLE out 8 = [9, 8, 7, 6, 9, 8, 7, 6] := by
  have h := rle_roundtrip [9, 8, 7, 6, 9, 8, 7, 6] (by decide) (by decide)
  simpa using h

/-- The inner write loop never changes the buffer length. -/
theorem writeRun_fst_length :
    ∀ (c : Nat) (buf : List Nat) (wp : Nat) (v : Voxel) (n : Nat),
      ((writeRun buf wp v c n).1).length = buf.length := by
  intro c
  induction c with
  | zero => intro buf wp v n; simp [writeRun]
  | succ c ih =>
    intro buf wp v n
    simp only [writeRun]
    split
    · rfl
    · rw [ih]; simp [writeVoxel]

/-- The write position never moves backwards. -/
theorem writeRun_wp_ge :
    ∀ (c : Nat) (buf : List Nat) (wp : Nat) (v : Voxel) (n : Nat),
      wp ≤ (writeRun buf wp v c n).2 := by
  intro c
  induction c with
  | zero => intro buf wp v n; simp [writeRun]
  | succ c ih =>
    intro buf wp v n
    simp only [writeRun]
    split
    · simp
    · have := ih (writeVoxel buf wp v) (wp + 4) v n; omega

/-- The write position never overshoots the expected length. -/
theorem writeRun_wp_le :
    ∀ (c : Nat) (buf : List Nat) (wp : Nat) (v : Voxel) (n : Nat),
      wp ≤ n → (writeRun buf wp v c n).2 ≤ n := by
  intro c
  induction c with
  | zero => intro buf wp v n h; simpa [writeRun] using h
  | succ c ih =>
    intro buf wp v n h
    simp only [writeRun]
    split
    · simpa using h
    · rename_i hcond
      exact ih _ _ _ _ (by omega)

/-- Positions at or beyond the final write position are untouched. -/
theorem writeRun_getD_ge :
    ∀ (c : Nat) (buf : List Nat) (wp : Nat) (v : Voxel) (n i : Nat),
      (writeRun buf wp v c n).2 ≤ i →
      ((writeRun buf wp v c n).1).getD i 0 = buf.getD i 0 := by
  intro c
  induction c with
  | zero => intro buf wp v n i h; simp [writeRun]
  | succ c ih =>
    intro buf wp v n i h
    by_cases hcond : wp + 4 > n
    · simp only [writeRun, if_pos hcond]
    · simp only [writeRun, if_neg hcond] at h ⊢
      have hge := writeRun_wp_ge c (writeVoxel buf wp v) (wp + 4) v n
      rw [ih _ _ _ _ i h]
      simp only [writeVoxel]
      rw [getD_set_ne _ _ _ _ (by omega : wp + 3 ≠ i),
          getD_set_ne _ _ _ _ (by omega : wp + 2 ≠ i),
          getD_set_ne _ _ _ _ (by omega : wp + 1 ≠ i),
          getD_set_ne _ _ _ _ (by omega : wp ≠ i)]

/-- Invariants of the decompression loop on arbitrary input: the buffer
keeps its length, the final write position stays within bounds, and
every position at or beyond it still reads zero. -/
theorem decompressAux_inv (data : List Nat) (n : Nat) :
    ∀ (m readPos wp : Nat) (buf : List Nat),
      data.length - readPos ≤ m →
      buf.length = n → wp ≤ n → (∀ i, wp ≤ i → buf.getD i 0 = 0) →
      (decompressRLEAux data n readPos wp buf).1.length = n ∧
      wp ≤ (decompressRLEAux data n readPos wp buf).2 ∧
      (decompressRLEAux data n readPos wp buf).2 ≤ n ∧
      (∀ i, (decompressRLEAux data n readPos wp buf).2 ≤ i →
        (decompressRLEAux data n readPos wp buf).1.getD i 0 = 0) := by
  intro m
  induction m with
  | zero =>
    intro readPos wp buf hm hlen hwp hzero
    rw [decompressRLEAux, dif_neg (by omega)]
    exact ⟨hlen, Nat.le_refl _, hwp, hzero⟩
  | succ m ih =>
    intro readPos wp buf hm hlen hwp hzero
    by_cases hc : readPos < data.length ∧ wp < n
    · rw [decompressRLEAux, dif_pos hc]
      have hrec := ih (readPos + 5)
        (writeRun buf wp
          (data.getD (readPos + 1) 0, data.getD (readPos + 2) 0,
           data.getD (readPos + 3) 0, data.getD (readPos + 4) 0)
          (data.getD readPos 0) n).2
        (writeRun buf wp
          (data.getD (readPos + 1) 0, data.getD (readPos + 2) 0,
           data.getD (readPos + 3) 0, data.getD (readPos + 4) 0)
          (data.getD readPos 0) n).1
        (by omega)
        (by rw [writeRun_fst_length]; exact hlen)
        (writeRun_wp_le _ _ _ _ _ (by omega))
        (fun i hi => by
          rw [writeRun_getD_ge _ _ _ _ _ _ hi]
          exact hzero i (Nat.le_trans (writeRun_wp_ge _ _ _ _ _) hi))
      exact ⟨hrec.1,
        Nat.le_trans (writeRun_wp_ge _ _ _ _ _) hrec.2.1,
        hrec.2.2.1, hrec.2.2.2⟩
    · rw [decompressRLEAux, dif_neg hc]
      exact ⟨hlen, Nat.le_refl _, hwp, hzero⟩

/-- C10: for every input byte sequence (truncated, malformed or empty)
and every expected length, `decompressRLE` returns (without throwing,
its model being total) a buffer of exactly `expectedLength` bytes, and
every position not filled by a decoded run reads zero. -/
theorem decompressRLE_total (data : List Nat) (n : Nat) :
    (decompressRLE data n).length = n ∧
    decompressRLEWritePos data n ≤ n ∧
    (∀ i, decompressRLEWritePos data n ≤ i →
      (decompressRLE data n).getD i 0 = 0) := by
  have h := decompressAux_inv data n data.length 0 0 (List.replicate n 0)
    (by omega) (by simp) (by omega) (fun i _ => getD_replicate_zero n i)
  exact ⟨h.1, h.2.2.1, h.2.2.2⟩

/-- Witness for C10 on a truncated compressed input (one run of count 1
against an expected length of 12). -/
theorem decompressRLE_total_witness :
    (decompressRLE [1, 9, 8, 7, 6] 12).length = 12 ∧
    (decompressRLE [1, 9, 8, 7, 6] 12).getD 12 0 = 0 :=
  ⟨(decompressRLE_total [1, 9, 8, 7, 6] 12).1,
   (decompressRLE_total [1, 9, 8, 7, 6] 12).2.2 12
     (decompressRLE_total [1, 9, 8, 7, 6] 12).2.1⟩

/-- C6 counterexample: a mismatching call (empty input against expected
length 4, which fires the console warning) returns a value identical to
that of a successful exact decompression of four zero bytes, so the
mismatch is not observable from the result of the call; only the
console-warning side channel distinguishes the two. -/
theorem mismatch_not_observable :
    decompressRLEWarns [] 4 = true ∧
    decompressRLEWarns [1, 0, 0, 0, 0] 4 = false ∧
    decompressRLE [] 4 = decompressRLE [1, 0, 0, 0, 0] 4 := by
  refine ⟨?_, ?_, ?_⟩ <;>
    simp [decompressRLEWarns, decompressRLEWritePos, decompressRLE,
      decompressRLEAux, writeRun, writeVoxel, List.set]

/-- C6 amended: when the decompressed byte count mismatches the expected
length, `decompressRLE` reports it only through the console warning and
still returns normally a zero-padded buffer of exactly `expectedLength`
bytes; the mismatch is not surfaced in the value returned to the
caller. -/
theorem mismatch_warn_only (data : List Nat) (n : Nat)
    (_hw : decompressRLEWarns data n = true) :
    (decompressRLE data n).length = n ∧
    (∀ i, decompressRLEWritePos data n ≤ i →
      (decompressRLE data n).getD i 0 = 0) := by
  have h := decompressAux_inv data n data.length 0 0 (List.replicate n 0)
    (by omega) (by simp) (by omega) (fun i _ => getD_replicate_zero n i)
  exact ⟨h.1, h.2.2.2⟩

/-- Witness for the amended C6 at the mismatching empty input. -/
theorem mismatch_warn_only_witness :
    (decompressRLE [] 4).length = 4 :=
  (mismatch_warn_only [] 4 (by
    simp [decompressRLEWarns, decompressRLEWritePos, decompressRLEAux])).1

/-- `_advanceFrame` never changes the frame duration. -/
theorem advanceFrame_duration (st : PlayerState) :
    (advanceFrame st).frameDurationMs = st.frameDurationMs := by
  rw [advanceFrame]
  split_ifs <;> rfl

/-- C4 (code behaviour at the failing input): with `frameDurationMs = 0`
the accumulate-and-advance loop of `_loop` never terminates, for any
fuel, any elapsed delta and any starting state — the loop condition
`accum >= 0` stays true because `accum -= 0` leaves it unchanged, so the
tick does not advance at most one frame and return; it hangs. -/
theorem tick_zero_duration_diverges :
    ∀ (fuel cf fc lsf accum : Nat) (lp playing : Bool),
      tickWhile fuel
        { currentFrame := cf, frameCount := fc, loop := lp,
          loopStartFrame := lsf, frameDurationMs := 0,
          playing := playing, accum := accum } = none := by
  intro fuel
  induction fuel with
  | zero => intros; rfl
  | succ fuel ih =>
    intro cf fc lsf accum lp playing
    rw [tickWhile, if_pos (Nat.zero_le _)]
    rw [advanceFrame]
    split_ifs <;> exact ih _ _ _ _ _ _

/-- C5: one frame advance increments `currentFrame` when not at the last
frame; at the last frame with loop on it jumps to
`min loopStartFrame (frameCount - 1)`; at the last frame with loop off
it pauses and leaves the frame unchanged.  Consequently ticking a
cumulative 500 ms from frame 0 with frameCount 5, loop on,
loopStartFrame 2 and frameDurationMs 100 leaves the frame index at 2. -/
theorem advance_policy :
    (∀ st : PlayerState, st.currentFrame + 1 < st.frameCount →
      (advanceFrame st).currentFrame = st.currentFrame + 1 ∧
      (advanceFrame st).playing = st.playing) ∧
    (∀ st : PlayerState, ¬ st.currentFrame + 1 < st.frameCount →
      st.loop = true →
      (advanceFrame st).currentFrame
        = min st.loopStartFrame (st.frameCount - 1)) ∧
    (∀ st : PlayerState, ¬ st.currentFrame + 1 < st.frameCount →
      st.loop = false →
      (advanceFrame st).playing = false ∧
      (advanceFrame st).currentFrame = st.currentFrame) ∧
    (∃ stf, tick 6 500
        { currentFrame := 0, frameCount := 5, loop := true,
          loopStartFrame := 2, frameDurationMs := 100,
          playing := true, accum := 0 } = some stf ∧
      stf.currentFrame = 2) := by
  refine ⟨?_, ?_, ?_, ?_⟩
  · intro st h
    rw [advanceFrame, if_pos h]
    exact ⟨rfl, rfl⟩
  · intro st h hl
    rw [advanceFrame, if_neg h, if_pos hl]
  · intro st h hl
    rw [advanceFrame, if_neg h]
    rw [if_neg (by simp [hl])]
    exact ⟨rfl, rfl⟩
  · exact ⟨_, rfl, rfl⟩

/-- Witness for C5 at concrete states: a mid-animation advance, a
looping advance at the last frame, and a non-looping pause. -/
theorem advance_policy_witness :
    (advanceFrame ⟨0, 5, true, 2, 100, true, 0⟩).currentFrame = 1 ∧
    (advanceFrame ⟨4, 5, true, 2, 100, true, 0⟩).currentFrame = 2 ∧
    (advanceFrame ⟨2, 3, false, 0, 100, true, 7⟩).playing = false := by
  refine ⟨(advance_policy.1 ⟨0, 5, true, 2, 100, true, 0⟩ (by decide)).1, ?_, ?_⟩
  · have h := advance_policy.2.1 ⟨4, 5, true, 2, 100, true, 0⟩ (by decide) rfl
    simpa using h
  · exact (advance_policy.2.2.1 ⟨2, 3, false, 0, 100, true, 7⟩
      (by decide) rfl).1

/-- Reduction of the Except monad bind on a success value. -/
theorem bindOk {α β : Type} (v : α) (f : α → Except String β) :
    Bind.bind (Except.ok v) f = f v := rfl

/-- The built header always has exactly 28 bytes. -/
theorem createHeader_length (o : HeaderOptions) :
    (createHologlyphHeader o).length = 28 := by
  simp [createHologlyphHeader, u32LE]

/-- Splitting the payload off a built header. -/
theorem drop_create (o : HeaderOptions) (rest : List Nat) :
    (createHologlyphHeader o ++ rest).drop 28 = rest := by
  rw [show (28 : Nat) = (createHologlyphHeader o).length
      from (createHeader_length o).symm, List.drop_left]

/-- Header bytes of a header-plus-payload buffer. -/
theorem getD_create_append (o : HeaderOptions) (rest : List Nat) (i : Nat)
    (h : i < 28) :
    (createHologlyphHeader o ++ rest).getD i 0
      = (createHologlyphHeader o).getD i 0 :=
  List.getD_append _ _ _ _ (by rw [createHeader_length]; omega)

/-- Changing only the compression type of the options rewrites exactly
byte 23 of the built header. -/
theorem create_update_ct (o : HeaderOptions) (c : Nat) :
    createHologlyphHeader { o with compressionType := c }
      = (createHologlyphHeader o).set 23 (c % 256) := by
  rfl

/-- Byte 23 of a built header is the (truncated) compression type. -/
theorem create_getD_23 (o : HeaderOptions) :
    (createHologlyphHeader o).getD 23 0 = o.compressionType % 256 := by
  rfl

/-- C1: for every well-formed previously-uncompressed .glyf buffer
(header built by `createHologlyphHeader` with compressionType NONE and
in-range fields, payload of exactly `frameSizeBytes * frameCount`
bytes), decompressing the compressed file restores the original buffer
byte for byte; in the compressed intermediate buffer every header byte
except byte 23 (the compression byte) agrees with the original, byte 23
is RLE (1) there, and it is NONE (0) in the original and in the
restored buffer. -/
theorem glyf_roundtrip (o : HeaderOptions) (payload : List Nat)
    (hw1 : 1 ≤ o.width) (hw2 : o.width ≤ 255)
    (hh1 : 1 ≤ o.height) (hh2 : o.height ≤ 255)
    (hd1 : 1 ≤ o.depth) (hd2 : o.depth ≤ 255)
    (hfc1 : 1 ≤ o.frameCount) (hfc2 : o.frameCount < 4294967296)
    (hdur : o.frameDurationMs < 4294967296)
    (hls : o.loopStartFrame < 4294967296)
    (hbpv1 : 1 ≤ o.bytesPerVoxel) (hbpv : o.bytesPerVoxel ≤ 255)
    (hcm : o.colorModel ≤ 255)
    (hct : o.compressionType = 0)
    (hlen : payload.length
      = o.width * o.height * o.depth * o.bytesPerVoxel * o.frameCount)
    (hmul : payload.length % 4 = 0) :
    ∃ y, compressGlyfFile (createHologlyphHeader o ++ payload) = .ok y ∧
      decompressGlyfFile y = .ok (createHologlyphHeader o ++ payload) ∧
      (∀ i, i < 28 → i ≠ 23 →
        y.getD i 0 = (createHologlyphHeader o ++ payload).getD i 0) ∧
      y.getD 23 0 = 1 ∧
      (createHologlyphHeader o ++ payload).getD 23 0 = 0 := by
  have hW : o.width % 256 = o.width := Nat.mod_eq_of_lt (by omega)
  have hH : o.height % 256 = o.height := Nat.mod_eq_of_lt (by omega)
  have hD : o.depth % 256 = o.depth := Nat.mod_eq_of_lt (by omega)
  have hFC : o.frameCount % 4294967296 = o.frameCount :=
    Nat.mod_eq_of_lt (by omega)
  have hDur : o.frameDurationMs % 4294967296 = o.frameDurationMs :=
    Nat.mod_eq_of_lt (by omega)
  have hLS : o.loopStartFrame % 4294967296 = o.loopStartFrame :=
    Nat.mod_eq_of_lt (by omega)
  have hBPV : o.bytesPerVoxel % 256 = o.bytesPerVoxel :=
    Nat.mod_eq_of_lt (by omega)
  have hCM : o.colorModel % 256 = o.colorModel := Nat.mod_eq_of_lt (by omega)
  have hCT : o.compressionType % 256 = 0 := by rw [hct]
  have hppos : 0 < payload.length := by
    rw [hlen]
    exact Nat.mul_pos (Nat.mul_pos (Nat.mul_pos (Nat.mul_pos hw1 hh1) hd1)
      hbpv1) hfc1
  have hparse := parse_create_append o payload
  rw [hW, hH, hD, hFC, hDur, hLS, hBPV, hCM, hCT] at hparse
  have hrle : compressRLE payload
      = .ok (flattenRuns (rleRuns (toVoxels payload))) := by
    rw [compressRLE, if_neg (by omega), if_neg (by omega)]
  have hcomp : compressGlyfFile (createHologlyphHeader o ++ payload)
      = .ok (createHologlyphHeader { o with compressionType := 1 }
          ++ flattenRuns (rleRuns (toVoxels payload))) := by
    rw [compressGlyfFile]
    rw [hparse]
    simp only [bindOk]
    rw [if_neg (by simp)]
    rw [drop_create, hrle]
    simp only [bindOk]
    rfl
  set out := flattenRuns (rleRuns (toVoxels payload)) with hout
  have hparse2 := parse_create_append { o with compressionType := 1 } out
  simp at hparse2
  rw [hW, hH, hD, hFC, hDur, hLS, hBPV, hCM] at hparse2
  have hdecomp : decompressGlyfFile
      (createHologlyphHeader { o with compressionType := 1 } ++ out)
      = .ok (createHologlyphHeader o ++ payload) := by
    rw [decompressGlyfFile]
    rw [hparse2]
    simp only [bindOk]
    rw [if_neg (by simp)]
    rw [if_pos (by simp)]
    rw [drop_create]
    have hexp : o.width * o.height * o.depth * o.bytesPerVoxel
        * o.frameCount = payload.length := hlen.symm
    rw [hexp, rle_roundtrip_core payload hmul]
    have hrec :
        ({ width := o.width, height := o.height, depth := o.depth,
           frameCount := o.frameCount, frameDurationMs := o.frameDurationMs,
           loop := o.loop, loopStartFrame := o.loopStartFrame,
           bytesPerVoxel := o.bytesPerVoxel, colorModel := o.colorModel,
           compressionType := 0 } : HeaderOptions) = o := by
      rw [← hct]
    rw [hrec]
    rfl
  refine ⟨_, hcomp, hdecomp, ?_, ?_, ?_⟩
  · intro i h1 h2
    rw [getD_create_append _ _ i h1, getD_create_append _ _ i h1,
      create_update_ct, getD_set_ne _ _ _ _ (by omega : 23 ≠ i)]
  · rw [getD_create_append _ _ 23 (by omega), create_update_ct]
    have h23 : (23 : Nat) < (createHologlyphHeader o).length := by
      rw [createHeader_length]; omega
    simp [List.getD_eq_getElem?_getD, List.getElem?_set_self, h23]
  · rw [getD_create_append _ _ 23 (by omega), create_getD_23, hCT]

/-- Witness for C1 on a 1x1x1 single-frame file with a 4-byte payload. -/
theorem glyf_roundtrip_witness :
    ∃ y, compressGlyfFile
        (createHologlyphHeader ⟨1, 1, 1, 1, 100, true, 0, 4, 0, 0⟩
          ++ [5, 6, 7, 8]) = .ok y ∧
      decompressGlyfFile y = .ok
        (createHologlyphHeader ⟨1, 1, 1, 1, 100, true, 0, 4, 0, 0⟩
          ++ [5, 6, 7, 8]) ∧
      (∀ i, i < 28 → i ≠ 23 → y.getD i 0
        = (createHologlyphHeader ⟨1, 1, 1, 1, 100, true, 0, 4, 0, 0⟩
          ++ [5, 6, 7, 8]).getD i 0) ∧
      y.getD 23 0 = 1 ∧
      (createHologlyphHeader ⟨1, 1, 1, 1, 100, true, 0, 4, 0, 0⟩
          ++ [5, 6, 7, 8]).getD 23 0 = 0 :=
  glyf_roundtrip ⟨1, 1, 1, 1, 100, true, 0, 4, 0, 0⟩ [5, 6, 7, 8]
    (by decide) (by decide) (by decide) (by decide) (by decide) (by decide)
    (by decide) (by decide) (by decide) (by decide) (by decide) (by decide)
    (by decide) (by decide) (by decide) (by decide)

/-- Decomposition of a product range into flat-mapped sub-ranges. -/
theorem range_mul_flatMap (a b : Nat) :
    List.range (a * b)
      = (List.range a).flatMap fun i => (List.range b).map fun j => i * b + j := by
  induction a with
  | zero => simp
  | succ a ih =>
    rw [Nat.succ_mul, List.range_add, List.range_succ, List.flatMap_append, ← ih]
    simp

/-- Mapping over a filterMap is a sublist of mapping over the source,
when the two functions agree on kept elements. -/
theorem map_filterMap_sublist {α β γ : Type} (l : List α) (f : α → Option β)
    (g : β → γ) (h : α → γ) (hyp : ∀ a b, f a = some b → g b = h a) :
    ((l.filterMap f).map g).Sublist (l.map h) := by
  induction l with
  | nil => simp
  | cons a l ih =>
    rw [List.filterMap_cons]
    cases hfa : f a with
    | none =>
      rw [List.map_cons]
      exact ih.cons _
    | some b =>
      rw [List.map_cons, List.map_cons, hyp a b hfa]
      exact ih.cons₂ _

/-- Pointwise sublists flat-map to a sublist. -/
theorem flatMap_sublist {α β : Type} (l : List α) (f g : α → List β)
    (h : ∀ a ∈ l, (f a).Sublist (g a)) :
    (l.flatMap f).Sublist (l.flatMap g) := by
  induction l with
  | nil => simp
  | cons a l ih =>
    rw [List.flatMap_cons, List.flatMap_cons]
    exact (h a (by simp)).append (ih fun a ha => h a (by simp [ha]))

/-- Injectivity of the running render index over in-range cells. -/
theorem cellIndex_inj (W H : Nat) (x y z x2 y2 z2 : Nat)
    (hx : x < W) (hx2 : x2 < W) (hy : y < H) (hy2 : y2 < H)
    (heq : z * (H * W) + y * W + x = z2 * (H * W) + y2 * W + x2) :
    x = x2 ∧ y = y2 ∧ z = z2 := by
  have hW : 0 < W := by omega
  have hH : 0 < H := by omega
  have e1 : x + (z * H + y) * W = x2 + (z2 * H + y2) * W := by
    calc x + (z * H + y) * W = z * (H * W) + y * W + x := by ring
      _ = z2 * (H * W) + y2 * W + x2 := heq
      _ = x2 + (z2 * H + y2) * W := by ring
  have ex : x = x2 := by
    have m1 := Nat.add_mul_mod_self_right x (z * H + y) W
    have m2 := Nat.add_mul_mod_self_right x2 (z2 * H + y2) W
    rw [Nat.mod_eq_of_lt hx] at m1
    rw [Nat.mod_eq_of_lt hx2] at m2
    rw [← m1, ← m2, e1]
  have eq2 : z * H + y = z2 * H + y2 := by
    have d1 := Nat.add_mul_div_right x (z * H + y) hW
    have d2 := Nat.add_mul_div_right x2 (z2 * H + y2) hW
    rw [Nat.div_eq_of_lt hx] at d1
    rw [Nat.div_eq_of_lt hx2] at d2
    rw [Nat.zero_add] at d1 d2
    rw [← d1, ← d2, e1]
  have e2 : y + z * H = y2 + z2 * H := by
    calc y + z * H = z * H + y := Nat.add_comm _ _
      _ = z2 * H + y2 := eq2
      _ = y2 + z2 * H := Nat.add_comm _ _
  have ey : y = y2 := by
    have m1 := Nat.add_mul_mod_self_right y z H
    have m2 := Nat.add_mul_mod_self_right y2 z2 H
    rw [Nat.mod_eq_of_lt hy] at m1
    rw [Nat.mod_eq_of_lt hy2] at m2
    rw [← m1, ← m2, e2]
  have ez : z = z2 := by
    have h3 : y + z * H = y + z2 * H := by rw [e2, ey]
    exact Nat.eq_of_mul_eq_mul_right hH (Nat.add_left_cancel h3)
  exact ⟨ex, ey, ez⟩

/-- The emitted index sequence is a sublist of the full cell range in
traversal order. -/
theorem projectFrame_index_sublist (W H D bpv : Nat) (frame : List Nat) :
    ((projectFrame W H D bpv frame).map EmittedVoxel.index).Sublist
      (List.range (D * (H * W))) := by
  rw [range_mul_flatMap D (H * W), projectFrame, List.map_flatMap]
  refine flatMap_sublist _ _ _ (fun z hz => ?_)
  rw [range_mul_flatMap H W, List.map_flatMap, List.map_flatMap]
  refine flatMap_sublist _ _ _ (fun y hy => ?_)
  rw [List.map_map]
  refine map_filterMap_sublist _ _ _ _ (fun x e hfx => ?_)
  dsimp only at hfx
  rcases Option.ite_none_left_eq_some.mp hfx with ⟨hcond, hsome⟩
  have he := Option.some.inj hsome
  rw [← he]
  simp only [Function.comp]
  omega

/-- C9: the per-voxel render pass emits voxels in Z (slowest), Y, X
(fastest) order — the emitted running indices are strictly increasing,
and the index of cell (x,y,z) is its rank `z*(H*W) + y*W + x` in that
order; a cell whose decoded alpha is 0 or whose decoded brightness is 0
(even with alpha 100) is never emitted; every other cell is emitted
exactly with the translation `(x - width/2, y - height/2, z - depth/2)`
and its decoded color. -/
theorem projector_order_cull_translate (W H D bpv : Nat)
    (frame : List Nat) :
    List.Pairwise (fun i j => i < j)
      ((projectFrame W H D bpv frame).map EmittedVoxel.index) ∧
    (∀ z, z < D → ∀ y, y < H → ∀ x, x < W →
      ((cellColor W H bpv frame x y z).a = 0 ∨
        (cellColor W H bpv frame x y z).b = 0) →
      ∀ e ∈ projectFrame W H D bpv frame,
        e.index ≠ z * (H * W) + y * W + x) ∧
    (∀ z, z < D → ∀ y, y < H → ∀ x, x < W →
      ¬((cellColor W H bpv frame x y z).a = 0 ∨
        (cellColor W H bpv frame x y z).b = 0) →
      ∃ e ∈ projectFrame W H D bpv frame,
        e.index = z * (H * W) + y * W + x ∧
        e.tx = (x : ℚ) - (W : ℚ) / 2 ∧
        e.ty = (y : ℚ) - (H : ℚ) / 2 ∧
        e.tz = (z : ℚ) - (D : ℚ) / 2 ∧
        e.color = cellColor W H bpv frame x y z) := by
  refine ⟨?_, ?_, ?_⟩
  · exact List.Pairwise.sublist (projectFrame_index_sublist W H D bpv frame)
      (List.pairwise_lt_range _)
  · intro z hz y hy x hx hbad e he hcontra
    rcases List.mem_flatMap.mp he with ⟨z2, hz2, he2⟩
    rcases List.mem_flatMap.mp he2 with ⟨y2, hy2, he3⟩
    rcases List.mem_filterMap.mp he3 with ⟨x2, hx2, hfx⟩
    rw [List.mem_range] at hz2 hy2 hx2
    dsimp only at hfx
    rcases Option.ite_none_left_eq_some.mp hfx with ⟨hcond, hsome⟩
    have he4 := Option.some.inj hsome
    rw [← he4] at hcontra
    dsimp only at hcontra
    rcases cellIndex_inj W H x2 y2 z2 x y z hx2 hx hy2 hy hcontra
      with ⟨rfl, rfl, rfl⟩
    exact hcond hbad
  · intro z hz y hy x hx hgood
    refine ⟨{ index := z * (H * W) + y * W + x,
              tx := (x : ℚ) - (W : ℚ) / 2,
              ty := (y : ℚ) - (H : ℚ) / 2,
              tz := (z : ℚ) - (D : ℚ) / 2,
              color := cellColor W H bpv frame x y z }, ?_,
      rfl, rfl, rfl, rfl, rfl⟩
    refine List.mem_flatMap.mpr ⟨z, List.mem_range.mpr hz, ?_⟩
    refine List.mem_flatMap.mpr ⟨y, List.mem_range.mpr hy, ?_⟩
    refine List.mem_filterMap.mpr ⟨x, List.mem_range.mpr hx, ?_⟩
    dsimp only
    rw [if_neg hgood]

/-- Witness for C9 on a 1x1x2 grid whose first cell is invisible
(alpha byte 0) and whose second is fully opaque and bright. -/
theorem projector_order_cull_translate_witness :
    (∀ e ∈ projectFrame 1 1 2 4 [0, 0, 255, 0, 0, 0, 255, 255],
      e.index ≠ 0) ∧
    (∃ e ∈ projectFrame 1 1 2 4 [0, 0, 255, 0, 0, 0, 255, 255],
      e.index = 1 ∧ e.tx = (0 : ℚ) - (1 : ℚ) / 2 ∧
      e.ty = (0 : ℚ) - (1 : ℚ) / 2 ∧ e.tz = (1 : ℚ) - (2 : ℚ) / 2 ∧
      e.color = cellColor 1 1 4 [0, 0, 255, 0, 0, 0, 255, 255] 0 0 1) := by
  constructor
  · intro e he
    have h := (projector_order_cull_translate 1 1 2 4
      [0, 0, 255, 0, 0, 0, 255, 255]).2.1 0 (by decide) 0 (by decide) 0
      (by decide) (by decide) e he
    simpa using h
  · have h := (projector_order_cull_translate 1 1 2 4
      [0, 0, 255, 0, 0, 0, 255, 255]).2.2 1 (by decide) 0 (by decide) 0
      (by decide) (by decide)
    simpa using h

end Hologlyph
